import Mathlib

/-!
Verification of the Pipeline Graph Analysis Service and its frontend glue.

The frontend definitions are shallow embeddings of the JavaScript under
`frontend/src` (`submit.js`, `config/nodeSchema.js`,
`hooks/useDynamicHandles.js`).  The backend service (graph model, cycle
detector, fingerprint, result cache, rate limiter) ships no source in this
tree, so those components are modelled from the specification; each such
definition carries a doc comment starting with `Modelled from the spec:`.
-/

namespace VectorShift

/-- A JavaScript field value as stored in a node's `data` object.  JS
`undefined` is represented by absence from the association list, i.e. a
lookup returning `none`. -/
inductive JValue where
  | null
  | str (s : String)
  | num (n : Int)
  | bool (b : Bool)
deriving DecidableEq

/-- Request edge shape (`{id, source, target, sourceHandle?, targetHandle?}`,
spec section 6; also the React Flow edge shape posted by `submit.js`). -/
structure Edge where
  id : String
  source : String
  target : String
  sourceHandle : Option String
  targetHandle : Option String
deriving DecidableEq

/-- Request node shape (`{id, type, data}`, spec section 6; also the React
Flow node shape held in the frontend store). -/
structure Node where
  id : String
  type : String
  data : List (String × JValue)
deriving DecidableEq

/-- JS object property read `data[name]`: `none` models `undefined`. -/
def lookupData (data : List (String × JValue)) (name : String) : Option JValue :=
  (data.find? (fun p => p.1 == name)).map Prod.snd

/-! ## Frontend node schema registry (`frontend/src/config/nodeSchema.js`)

Only the parts of each schema consulted by `validateNodes` and
`useDynamicHandles` are embedded: the field list with its `required` flags
and the input-handle configuration.  Layout and presentation attributes
(labels, icons, colors, toolbar metadata, output handles) are not read by
the code under verification. -/

structure FieldSchema where
  name : String
  required : Bool
deriving DecidableEq

structure HandleSpec where
  id : String
  label : String
deriving DecidableEq

/-- Dynamic-input configuration of a schema (`handles.inputs` with
`dynamic: true`): the field to parse.  The pattern is the literal regex
`{{...}}` from the source, embedded as `scanVars` below. -/
structure DynamicInputConfig where
  parseFrom : String
deriving DecidableEq

inductive InputHandleSpec where
  | fixed (handles : List HandleSpec)
  | dynamic (cfg : DynamicInputConfig)
deriving DecidableEq

structure NodeSchema where
  type : String
  fields : List FieldSchema
  inputs : InputHandleSpec
deriving DecidableEq

/-- `nodeSchemas.input` -/
def inputSchema : NodeSchema :=
  ⟨"input", [⟨"inputName", true⟩, ⟨"inputType", true⟩], .fixed []⟩

/-- `nodeSchemas.output` -/
def outputSchema : NodeSchema :=
  ⟨"output", [⟨"outputName", true⟩, ⟨"outputType", true⟩],
    .fixed [⟨"input", "Input"⟩]⟩

/-- `nodeSchemas.llm` (no field carries `required`) -/
def llmSchema : NodeSchema :=
  ⟨"llm", [⟨"modelName", false⟩, ⟨"temperature", false⟩],
    .fixed [⟨"system", "System"⟩, ⟨"prompt", "Prompt"⟩]⟩

/-- `nodeSchemas.text`: the one schema with dynamic inputs, parsing the
`text` field with the `{{...}}` variable pattern. -/
def textSchema : NodeSchema :=
  ⟨"text", [⟨"text", false⟩], .dynamic ⟨"text"⟩⟩

/-- `nodeSchemas.filter` -/
def filterSchema : NodeSchema :=
  ⟨"filter", [⟨"filterType", false⟩, ⟨"condition", false⟩, ⟨"caseSensitive", false⟩],
    .fixed [⟨"input", "Input"⟩]⟩

/-- `nodeSchemas.merge` -/
def mergeSchema : NodeSchema :=
  ⟨"merge", [⟨"mergeStrategy", false⟩, ⟨"delimiter", false⟩],
    .fixed [⟨"input1", "Input 1"⟩, ⟨"input2", "Input 2"⟩, ⟨"input3", "Input 3"⟩]⟩

/-- `nodeSchemas.transform` -/
def transformSchema : NodeSchema :=
  ⟨"transform", [⟨"transformation", false⟩, ⟨"preserveWhitespace", false⟩],
    .fixed [⟨"input", "Input"⟩]⟩

/-- `nodeSchemas.delay` -/
def delaySchema : NodeSchema :=
  ⟨"delay", [⟨"delayMs", false⟩, ⟨"enableDelay", false⟩],
    .fixed [⟨"input", "Input"⟩]⟩

/-- `nodeSchemas.conditional` -/
def conditionalSchema : NodeSchema :=
  ⟨"conditional", [⟨"condition", false⟩, ⟨"operator", false⟩, ⟨"compareValue", false⟩],
    .fixed [⟨"input", "Input"⟩]⟩

/-- `getNodeSchema(type)`: registry lookup, `null` for unknown types. -/
def getNodeSchema : String → Option NodeSchema
  | "input" => some inputSchema
  | "output" => some outputSchema
  | "llm" => some llmSchema
  | "text" => some textSchema
  | "filter" => some filterSchema
  | "merge" => some mergeSchema
  | "transform" => some transformSchema
  | "delay" => some delaySchema
  | "conditional" => some conditionalSchema
  | _ => none

/-! ## Submission validation (`frontend/src/submit.js`) -/

/-- `value === undefined || value === null || value === ''` from
`validateNodes` (`submit.js` line 25); `none` is JS `undefined`. -/
def isMissing : Option JValue → Bool
  | none => true
  | some .null => true
  | some (.str s) => s == ""
  | some _ => false

/-- The predicate of the `nodes.filter` in `validateNodes` (`submit.js`
lines 18-29): a node is invalid when its type has a registered schema and
some `required` field has a missing value.  Unregistered types are never
invalid (`if (!schema) return false`). -/
def nodeInvalid (n : Node) : Bool :=
  match getNodeSchema n.type with
  | none => false
  | some schema =>
    schema.fields.any (fun f => f.required && isMissing (lookupData n.data f.name))

/-- `validateNodes` (`submit.js` lines 17-32). -/
def validateNodes (nodes : List Node) : List Node :=
  nodes.filter nodeInvalid

/-- Observable outcome of `handleSubmit`: either the POST of
`{ nodes, edges }` to `/pipelines/parse`, or the validation-error toast
(which reports the invalid-node count and issues no network request). -/
inductive SubmitOutcome where
  | posted (nodes : List Node) (edges : List Edge)
  | validationToast (invalidCount : Nat)
deriving DecidableEq

/-- `handleSubmit` (`submit.js` lines 34-66) up to the network boundary:
if `validateNodes()` is nonempty, show the error toast and return before
`fetch`; otherwise POST the payload. -/
def handleSubmit (nodes : List Node) (edges : List Edge) : SubmitOutcome :=
  let invalidNodes := validateNodes nodes
  if invalidNodes.length > 0 then .validationToast invalidNodes.length
  else .posted nodes edges

/-! ## Dynamic handle generation (`frontend/src/hooks/useDynamicHandles.js`) -/

/-- One pass of the JS regex engine for `/\x7b\x7b([^\x7d]+)\x7d\x7d/g` over the
field text: at each position try to match two opening braces, a nonempty
maximal run of non-closing-brace characters (the capture group), then two
closing braces; on failure advance one character, on success continue after
the match.  `fuel` bounds the scan by the input length (each step consumes
at least one character), keeping the recursion structural. -/
def scanVarsAux : Nat → List Char → List (List Char)
  | 0, _ => []
  | fuel + 1, l =>
    match l with
    | '{' :: '{' :: rest =>
      let run := rest.takeWhile (fun c => c != '}')
      let rest2 := rest.dropWhile (fun c => c != '}')
      match run, rest2 with
      | [], _ => scanVarsAux fuel ('{' :: rest)
      | _, '}' :: '}' :: tail => run :: scanVarsAux fuel tail
      | _, _ => scanVarsAux fuel ('{' :: rest)
    | _ :: rest => scanVarsAux fuel rest
    | [] => []

/-- All capture groups of the global `{{...}}` pattern, in match order. -/
def scanVars (l : List Char) : List (List Char) :=
  scanVarsAux l.length l

/-- JS `String.prototype.trim()` on the captured variable name. -/
def jsTrim (l : List Char) : List Char :=
  ((l.dropWhile Char.isWhitespace).reverse.dropWhile Char.isWhitespace).reverse

/-- `match[1].trim()` for every match, in match order (`submit` of the
trimmed names into the `Set` happens in this order). -/
def extractVars (s : String) : List String :=
  (scanVars s.toList).map (fun l => String.mk (jsTrim l))

/-- Insertion-order deduplication: `Array.from(new Set(...))` keeps the
first occurrence of each element. -/
def uniqueFirstAux (seen : List String) : List String → List String
  | [] => []
  | x :: xs =>
    if x ∈ seen then uniqueFirstAux seen xs
    else x :: uniqueFirstAux (x :: seen) xs

def uniqueFirst (l : List String) : List String :=
  uniqueFirstAux [] l

/-- A character kept verbatim by `varName.replace(/[^a-zA-Z0-9_]/g, "_")`. -/
def isWordChar (c : Char) : Bool :=
  c.isAlpha || c.isDigit || c == '_'

/-- The handle-id sanitizer from `useDynamicHandles` (line 87): every
character outside `[a-zA-Z0-9_]` becomes an underscore. -/
def sanitizeId (s : String) : String :=
  String.mk (s.toList.map (fun c => if isWordChar c then c else '_'))

/-- A generated handle: sanitized id, original variable name as label, and
the percentage position `((index + 1) * 100) / (count + 1)`. -/
structure Handle where
  id : String
  label : String
  position : ℚ
deriving DecidableEq

structure DynamicHandles where
  inputs : List Handle
  outputs : List Handle
deriving DecidableEq

/-- `nodeData[config.parseFrom] || ''` (line 72): falsy values (absence,
`null`, empty string, `0`, `false`) collapse to the empty string; other
primitives are coerced to their string form by `RegExp.exec`. -/
def fieldValueOrEmpty : Option JValue → String
  | none => ""
  | some .null => ""
  | some (.str s) => s
  | some (.num n) => if n == 0 then "" else toString n
  | some (.bool b) => if b then "true" else ""

/-- `useDynamicHandles(schema, nodeData)` (`useDynamicHandles.js` lines
62-101): with a dynamic input configuration, parse the configured field,
collect the distinct trimmed `{{...}}` variables in first-occurrence
order, and emit one input handle per variable; otherwise (and for
`outputs` always) emit nothing. -/
def useDynamicHandles (schema : NodeSchema) (nodeData : List (String × JValue)) :
    DynamicHandles :=
  match schema.inputs with
  | .fixed _ => ⟨[], []⟩
  | .dynamic cfg =>
    let fieldValue := fieldValueOrEmpty (lookupData nodeData cfg.parseFrom)
    let varsArray := uniqueFirst (extractVars fieldValue)
    ⟨varsArray.enum.map (fun p =>
      ⟨sanitizeId p.2, p.2, ((p.1 : ℚ) + 1) * 100 / ((varsArray.length : ℚ) + 1)⟩), []⟩

/-! ## Backend: Pipeline Graph Analysis Service

The backend package (`backend/app`) is not part of this source tree, so the
components below are modelled from the specification (sections 3, 4, 6-8). -/

/-- Modelled from the spec: the structural validation errors of
`build(nodes, edges)` (section 4.1 / section 7): dangling edge reference,
duplicate node id, oversized payload. -/
inductive BuildError where
  | unknownEdgeRef
  | duplicateNodeId
  | payloadTooLarge
deriving DecidableEq

/-- Modelled from the spec: the validated in-memory graph of one request
(section 3).  Adjacency is derived on demand by `succs`. -/
structure Graph where
  nodes : List Node
  edges : List Edge
deriving DecidableEq

/-- Modelled from the spec: `build(nodes, edges) → Graph` (section 4.1),
failing with a ValidationError when an edge references an unknown node id,
a node id is duplicated, or node/edge counts exceed the configured maxima. -/
def build (maxNodes maxEdges : Nat) (nodes : List Node) (edges : List Edge) :
    Except BuildError Graph :=
  if nodes.length > maxNodes ∨ edges.length > maxEdges then
    .error .payloadTooLarge
  else if ¬ (nodes.map Node.id).Nodup then
    .error .duplicateNodeId
  else if edges.any (fun e =>
      !(nodes.map Node.id).contains e.source || !(nodes.map Node.id).contains e.target) then
    .error .unknownEdgeRef
  else
    .ok ⟨nodes, edges⟩

/-- Modelled from the spec: outgoing adjacency of a node, preserving edge
input order (section 4.1). -/
def succs (edges : List Edge) (u : String) : List String :=
  (edges.filter (fun e => e.source == u)).map Edge.target

/-- Modelled from the spec: one step of the successor loop of the DFS-based
cycle detector (section 4.2).  `visit` is the recursive descent into an
unvisited successor, `path` the active DFS path (the in-progress nodes, in
order, current node last), `black` the finished nodes.  A successor on the
active path is a back-edge: the witness is the active path from that
successor forward to the current node (`dropWhile`).  Left = cycle found,
Right = updated finished set. -/
def dfsFold (visit : List String → String → Sum (List String) (List String))
    (path : List String) :
    List String → List String → Sum (List String) (List String)
  | black, [] => Sum.inr black
  | black, v :: vs =>
    if v ∈ path then Sum.inl (path.dropWhile (fun w => w != v))
    else if v ∈ black then dfsFold visit path black vs
    else
      match visit black v with
      | Sum.inl c => Sum.inl c
      | Sum.inr black2 => dfsFold visit path black2 vs

/-- Modelled from the spec: depth-first visit of one node in the three-color
scheme (section 4.2).  A node is gray while it is on `path` and black once
in the returned finished set.  `fuel` bounds the recursion depth; the
driver passes one more than the node count, which exceeds the length of any
duplicate-free active path. -/
def dfsVisit (edges : List Edge) : Nat → List String → List String → String →
    Sum (List String) (List String)
  | 0, _, black, _ => Sum.inr black
  | fuel + 1, path, black, u =>
    match dfsFold (fun b v => dfsVisit edges fuel (path ++ [u]) b v)
        (path ++ [u]) black (succs edges u) with
    | Sum.inl c => Sum.inl c
    | Sum.inr black2 => Sum.inr (u :: black2)

/-- Modelled from the spec: the detector's outer loop over all nodes in
input order, covering disconnected components (section 4.2); the first
cycle found by this fixed traversal order is returned. -/
def runDetector (edges : List Edge) (fuel : Nat) :
    List String → List String → Option (List String)
  | _, [] => none
  | black, n :: ns =>
    if n ∈ black then runDetector edges fuel black ns
    else
      match dfsVisit edges fuel [] black n with
      | Sum.inl c => some c
      | Sum.inr black2 => runDetector edges fuel black2 ns

/-- Modelled from the spec: `analyze(Graph) → (is_dag, cycle?)`
(section 4.2). -/
def cycleDetect (nodes : List Node) (edges : List Edge) :
    Bool × Option (List String) :=
  match runDetector edges (nodes.length + 1) [] (nodes.map Node.id) with
  | some c => (false, some c)
  | none => (true, none)

/-- Modelled from the spec: the immutable `AnalysisResult` (section 3).
The wall-clock `computed_at` stamp is outside the shallow embedding and is
not part of any claim's equality, so it is omitted. -/
structure AnalysisResult where
  node_count : Nat
  edge_count : Nat
  is_dag : Bool
  cycle : Option (List String)
deriving DecidableEq

/-- Modelled from the spec: running the cycle detector on a validated graph
and packaging the `AnalysisResult` (sections 3, 4.2, 6). -/
def analyzeGraph (g : Graph) : AnalysisResult :=
  let r := cycleDetect g.nodes g.edges
  ⟨g.nodes.length, g.edges.length, r.1, r.2⟩

/-- Modelled from the spec: the canonical node descriptor `(id, type)` of
the fingerprint (section 4.3); serialized so that lexicographic descriptor
order begins with the id. -/
def nodeDescriptor (n : Node) : String :=
  n.id ++ ":" ++ n.type

/-- Modelled from the spec: the canonical edge descriptor
`(source, target, source-handle, target-handle)` (section 4.3). -/
def edgeDescriptor (e : Edge) : String :=
  e.source ++ ":" ++ e.target ++ ":" ++
    e.sourceHandle.getD "" ++ ":" ++ e.targetHandle.getD ""

/-- Lexicographic comparison of character lists by code point. -/
def charsLe : List Char → List Char → Bool
  | [], _ => true
  | _ :: _, [] => false
  | a :: as, b :: bs =>
    if a.toNat < b.toNat then true
    else if b.toNat < a.toNat then false
    else charsLe as bs

/-- Lexicographic string comparison used to sort descriptors. -/
def strLe (a b : String) : Bool :=
  charsLe a.toList b.toList

/-- Insert into a lexicographically sorted list of descriptor strings. -/
def insertS (a : String) : List String → List String
  | [] => [a]
  | b :: bs => if strLe a b then a :: b :: bs else b :: insertS a bs

/-- Lexicographic sort of descriptor strings (section 4.3). -/
def sortStrings : List String → List String
  | [] => []
  | x :: xs => insertS x (sortStrings xs)

/-- Modelled from the spec: `fingerprint(Graph)` (section 4.3) up to the
final digest: node descriptors sorted by id, edge descriptors sorted
lexicographically, concatenated in canonical form.  The concluding
collision-resistant hash is deterministic, so equality of cache keys is
equality of this canonical form; claims about fingerprint equality are
settled on it. -/
def fingerprint (g : Graph) : String :=
  String.intercalate "|" (sortStrings (g.nodes.map nodeDescriptor)) ++ "#" ++
    String.intercalate "|" (sortStrings (g.edges.map edgeDescriptor))

/-- Modelled from the spec: the entries of the Result Cache, fingerprint to
AnalysisResult (sections 3, 4.4).  Insertion/access stamps, TTL and LRU
eviction do not bear on the claims settled here and are omitted. -/
structure CacheState where
  entries : List (String × AnalysisResult)
deriving DecidableEq

/-- Modelled from the spec: outcome of `analyze_request` (section 4.6): an
AnalysisResult with its cache-hit flag, or a short-circuiting validation
failure. -/
inductive RequestOutcome where
  | ok (result : AnalysisResult) (cacheHit : Bool)
  | validationFailure (err : BuildError)
deriving DecidableEq

/-- Modelled from the spec: the Analysis Facade path build Graph →
fingerprint → cache get-or-compute → attach cache-hit flag (section 4.6);
a validation failure short-circuits before reaching the cache, and only a
freshly computed AnalysisResult is ever inserted (sections 4.4, 7). -/
def analyzeRequest (maxNodes maxEdges : Nat) (st : CacheState)
    (nodes : List Node) (edges : List Edge) : RequestOutcome × CacheState :=
  match build maxNodes maxEdges nodes edges with
  | .error e => (.validationFailure e, st)
  | .ok g =>
    let fp := fingerprint g
    match st.entries.lookup fp with
    | some r => (.ok r true, st)
    | none =>
      let r := analyzeGraph g
      (.ok r false, ⟨(fp, r) :: st.entries⟩)

/-- Modelled from the spec: the Rate Limiter's explicit admission outcome
(section 4.5): allowed, or an explicit rejection carrying a retry hint
(seconds until the client's window reopens) - never a silent drop. -/
inductive AdmitDecision where
  | allowed
  | rejected (retryAfter : Nat)
deriving DecidableEq

/-- Modelled from the spec: per-client fixed-window counters of the Rate
Limiter (section 4.5): client id to (window start, requests used). -/
structure LimiterState where
  windows : List (String × Nat × Nat)
deriving DecidableEq

/-- Modelled from the spec: `admit of a client id` (section 4.5) with quota
`quota` per window of length `window`, at time `now`: an expired or absent
window resets to a fresh one; within the window the first `quota` requests
are admitted and the counter incremented atomically; past the quota the
request is rejected with the time until the window reopens. -/
def admitOne (quota window now : Nat) (st : LimiterState) (client : String) :
    AdmitDecision × LimiterState :=
  let cur :=
    match st.windows.lookup client with
    | some (ws, c) => if ws + window ≤ now then (now, 0) else (ws, c)
    | none => (now, 0)
  if cur.2 < quota then
    (.allowed,
      ⟨(client, cur.1, cur.2 + 1) :: st.windows.filter (fun p => p.1 != client)⟩)
  else
    (.rejected (cur.1 + window - now), st)

/-- Modelled from the spec: a client's successive requests at the given
times, threading the limiter state (section 4.5, section 8). -/
def admitTimes (quota window : Nat) (client : String) :
    List Nat → LimiterState → List AdmitDecision × LimiterState
  | [], st => ([], st)
  | t :: ts, st =>
    let r := admitOne quota window t st client
    let rest := admitTimes quota window client ts r.2
    (r.1 :: rest.1, rest.2)

/-! ## Derived predicates used in the claim statements -/

/-- `isEdgeOf edges u v`: the input edge list contains an actual edge from
`u` to `v`. -/
def isEdgeOf (edges : List Edge) (u v : String) : Prop :=
  ∃ e ∈ edges, e.source = u ∧ e.target = v

instance (edges : List Edge) (u v : String) : Decidable (isEdgeOf edges u v) := by
  unfold isEdgeOf; infer_instance

/-- Every consecutive pair of the sequence is an input edge. -/
def chainOf (edges : List Edge) : List String → Prop
  | [] => True
  | [_] => True
  | u :: v :: rest => isEdgeOf edges u v ∧ chainOf edges (v :: rest)

/-- A sound reported cycle: nonempty, distinct node ids, consecutive pairs
are input edges, and the wraparound pair from the last id back to the
first is an input edge as well. -/
def cycleSound (edges : List Edge) (c : List String) : Prop :=
  c ≠ [] ∧ c.Nodup ∧ chainOf edges c ∧ isEdgeOf edges (c.getLastD "") (c.headD "")

/-- The graph of `edges` has no directed cycle: no nonempty edge-chain
closes back onto its first element. -/
def Acyclic (edges : List Edge) : Prop :=
  ¬ ∃ c : List String,
      c ≠ [] ∧ chainOf edges c ∧ isEdgeOf edges (c.getLastD "") (c.headD "")

/-! ## Lemmas about insertion-order deduplication -/

theorem mem_uniqueFirstAux (y : String) :
    ∀ (l seen : List String), y ∈ uniqueFirstAux seen l ↔ y ∈ l ∧ y ∉ seen := by
  intro l
  induction l with
  | nil => intro seen; simp [uniqueFirstAux]
  | cons x xs ih =>
    intro seen
    by_cases hx : x ∈ seen
    · simp only [uniqueFirstAux, if_pos hx, ih, List.mem_cons]
      constructor
      · rintro ⟨hmem, hseen⟩; exact ⟨Or.inr hmem, hseen⟩
      · rintro ⟨hor, hseen⟩
        rcases hor with rfl | hmem
        · exact absurd hx hseen
        · exact ⟨hmem, hseen⟩
    · simp only [uniqueFirstAux, if_neg hx, List.mem_cons, ih]
      constructor
      · rintro (rfl | ⟨hmem, hseen⟩)
        · exact ⟨Or.inl rfl, hx⟩
        · exact ⟨Or.inr hmem, fun hy => hseen (Or.inr hy)⟩
      · rintro ⟨rfl | hmem, hseen⟩
        · exact Or.inl rfl
        · by_cases hyx : y = x
          · exact Or.inl hyx
          · exact Or.inr ⟨hmem, fun hy => by
              rcases hy with h | h
              · exact hyx h
              · exact hseen h⟩

theorem nodup_uniqueFirstAux :
    ∀ (l seen : List String), (uniqueFirstAux seen l).Nodup := by
  intro l
  induction l with
  | nil => intro seen; simp [uniqueFirstAux]
  | cons x xs ih =>
    intro seen
    by_cases hx : x ∈ seen
    · simpa [uniqueFirstAux, if_pos hx] using ih seen
    · simp only [uniqueFirstAux, if_neg hx]
      refine List.Nodup.cons ?_ (ih (x :: seen))
      intro hmem
      exact ((mem_uniqueFirstAux x xs (x :: seen)).1 hmem).2 (List.mem_cons_self x seen)

theorem mem_uniqueFirst (y : String) (l : List String) :
    y ∈ uniqueFirst l ↔ y ∈ l := by
  simp [uniqueFirst, mem_uniqueFirstAux]

theorem nodup_uniqueFirst (l : List String) : (uniqueFirst l).Nodup :=
  nodup_uniqueFirstAux l []

/-! ## C9: the submit gate -/

theorem nodeInvalid_eq_false_iff (n : Node) :
    nodeInvalid n = false ↔
      ∀ s, getNodeSchema n.type = some s →
        ∀ f ∈ s.fields, f.required = true →
          isMissing (lookupData n.data f.name) = false := by
  unfold nodeInvalid
  cases h : getNodeSchema n.type with
  | none => simp
  | some s =>
    simp only [Option.some.injEq]
    constructor
    · rintro hall t rfl f hf hreq
      have h2 := List.any_eq_false.1 hall f hf
      simp only [Bool.and_eq_true, not_and, hreq, true_implies] at h2
      simpa using h2
    · intro hall
      refine List.any_eq_false.2 (fun f hf hcontra => ?_)
      simp only [Bool.and_eq_true] at hcontra
      obtain ⟨hreq, hmiss⟩ := hcontra
      rw [hall s rfl f hf hreq] at hmiss
      cases hmiss

/-- C9: the frontend POSTs the `{ nodes, edges }` payload exactly when no
node whose type has a registered schema is missing a required field value
(missing = `undefined`, `null`, or the empty string); otherwise it shows a
validation-error toast reporting the invalid-node count and issues no
network request.  Nodes of unregistered types never block submission. -/
theorem C9_submit_gate (nodes : List Node) (edges : List Edge) :
    (handleSubmit nodes edges = .posted nodes edges ↔
      ∀ n ∈ nodes, ∀ s, getNodeSchema n.type = some s →
        ∀ f ∈ s.fields, f.required = true →
          isMissing (lookupData n.data f.name) = false) ∧
    (handleSubmit nodes edges ≠ .posted nodes edges →
      handleSubmit nodes edges = .validationToast (validateNodes nodes).length ∧
        0 < (validateNodes nodes).length) := by
  have hempty : validateNodes nodes = [] ↔
      ∀ n ∈ nodes, ∀ s, getNodeSchema n.type = some s →
        ∀ f ∈ s.fields, f.required = true →
          isMissing (lookupData n.data f.name) = false := by
    unfold validateNodes
    rw [List.filter_eq_nil_iff]
    constructor
    · intro hall n hn
      exact (nodeInvalid_eq_false_iff n).1 (by simpa using hall n hn)
    · intro hall n hn
      simp [(nodeInvalid_eq_false_iff n).2 (hall n hn)]
  by_cases hlen : (validateNodes nodes).length > 0
  · have hne : validateNodes nodes ≠ [] := by
      intro h; rw [h] at hlen; simp at hlen
    constructor
    · rw [← hempty]
      constructor
      · intro h
        simp [handleSubmit, if_pos hlen] at h
      · intro h; exact absurd h hne
    · intro _
      exact ⟨by simp [handleSubmit, if_pos hlen], hlen⟩
  · have hnil : validateNodes nodes = [] := by
      simpa using List.length_eq_zero.1 (Nat.eq_zero_of_not_pos hlen)
    constructor
    · rw [← hempty]
      simp [handleSubmit, if_neg hlen, hnil]
    · intro h
      exact absurd (by simp [handleSubmit, if_neg hlen]) h

/-- C9 witness: a concrete run of the gate, obtained from `C9_submit_gate`
at a two-node store (one valid registered node, one unregistered node). -/
theorem C9_submit_gate_witness :
    (handleSubmit
        [⟨"n1", "input", [("inputName", .str "a"), ("inputType", .str "Text")]⟩,
         ⟨"n2", "mystery", []⟩] [] =
      .posted
        [⟨"n1", "input", [("inputName", .str "a"), ("inputType", .str "Text")]⟩,
         ⟨"n2", "mystery", []⟩] [] ↔
      ∀ n ∈ [Node.mk "n1" "input" [("inputName", .str "a"), ("inputType", .str "Text")],
             Node.mk "n2" "mystery" []],
        ∀ s, getNodeSchema n.type = some s →
          ∀ f ∈ s.fields, f.required = true →
            isMissing (lookupData n.data f.name) = false) ∧
    (handleSubmit
        [⟨"n1", "input", [("inputName", .str "a"), ("inputType", .str "Text")]⟩,
         ⟨"n2", "mystery", []⟩] [] ≠
      .posted
        [⟨"n1", "input", [("inputName", .str "a"), ("inputType", .str "Text")]⟩,
         ⟨"n2", "mystery", []⟩] [] →
      handleSubmit
          [⟨"n1", "input", [("inputName", .str "a"), ("inputType", .str "Text")]⟩,
           ⟨"n2", "mystery", []⟩] [] =
        .validationToast
          (validateNodes
            [⟨"n1", "input", [("inputName", .str "a"), ("inputType", .str "Text")]⟩,
             ⟨"n2", "mystery", []⟩]).length ∧
        0 < (validateNodes
          [⟨"n1", "input", [("inputName", .str "a"), ("inputType", .str "Text")]⟩,
           ⟨"n2", "mystery", []⟩]).length) :=
  C9_submit_gate _ _

/-! ## C10: dynamic handle generation -/

/-- C10: for a schema with dynamic inputs, `useDynamicHandles` returns one
input handle per distinct trimmed variable matched by the curly-brace
pattern in the parsed field (duplicates collapsed, first-occurrence order),
with the handle id being the sanitized variable name (so distinct variable
names can collide on one id) and positions evenly spaced at
`(index + 1) * 100 / (count + 1)` percent. -/
theorem C10_dynamic_handles (sch : NodeSchema) (cfg : DynamicInputConfig)
    (data : List (String × JValue)) (hdyn : sch.inputs = .dynamic cfg) :
    ((useDynamicHandles sch data).inputs.map Handle.label).Nodup ∧
    (∀ v, v ∈ (useDynamicHandles sch data).inputs.map Handle.label ↔
      v ∈ extractVars (fieldValueOrEmpty (lookupData data cfg.parseFrom))) ∧
    (∀ h ∈ (useDynamicHandles sch data).inputs, h.id = sanitizeId h.label) ∧
    (∀ i (hi : i < (useDynamicHandles sch data).inputs.length),
      ((useDynamicHandles sch data).inputs[i]).position =
        ((i : ℚ) + 1) * 100 / (((useDynamicHandles sch data).inputs.length : ℚ) + 1)) ∧
    (∃ v w : String, v ≠ w ∧ sanitizeId v = sanitizeId w) := by
  have hinputs : (useDynamicHandles sch data).inputs =
      (uniqueFirst (extractVars (fieldValueOrEmpty (lookupData data cfg.parseFrom)))).enum.map
        (fun p => ⟨sanitizeId p.2, p.2,
          ((p.1 : ℚ) + 1) * 100 /
            (((uniqueFirst (extractVars
              (fieldValueOrEmpty (lookupData data cfg.parseFrom)))).length : ℚ) + 1)⟩) := by
    unfold useDynamicHandles
    rw [hdyn]
  have hlabels : (useDynamicHandles sch data).inputs.map Handle.label =
      uniqueFirst (extractVars (fieldValueOrEmpty (lookupData data cfg.parseFrom))) := by
    rw [hinputs, List.map_map]
    exact List.enumFrom_map_snd 0 _
  have hlen : (useDynamicHandles sch data).inputs.length =
      (uniqueFirst (extractVars (fieldValueOrEmpty (lookupData data cfg.parseFrom)))).length := by
    rw [hinputs, List.length_map, List.enum_length]
  refine ⟨?_, ?_, ?_, ?_, ?_⟩
  · rw [hlabels]; exact nodup_uniqueFirst _
  · intro v; rw [hlabels, mem_uniqueFirst]
  · intro h hmem
    rw [hinputs] at hmem
    rcases List.mem_map.1 hmem with ⟨p, _, rfl⟩
    rfl
  · intro i hi
    have hx := List.getElem_of_eq hinputs hi
    rw [hlen, hx]
    simp only [List.getElem_map, List.getElem_enum]
  · exact ⟨"a b", "a-b", by decide, by decide⟩

/-- C10 witness: `C10_dynamic_handles` applied to the concrete `text`
schema and a data value containing one curly-brace variable. -/
theorem C10_dynamic_handles_witness :
    textSchema.inputs = .dynamic ⟨"text"⟩ ∧
    (((useDynamicHandles textSchema
        [("text", .str (String.mk ['{', '{', 'x', '}', '}']))]).inputs.map
          Handle.label).Nodup ∧
    (∀ v, v ∈ (useDynamicHandles textSchema
        [("text", .str (String.mk ['{', '{', 'x', '}', '}']))]).inputs.map Handle.label ↔
      v ∈ extractVars (fieldValueOrEmpty (lookupData
        [("text", .str (String.mk ['{', '{', 'x', '}', '}']))]
        (DynamicInputConfig.mk "text").parseFrom))) ∧
    (∀ h ∈ (useDynamicHandles textSchema
        [("text", .str (String.mk ['{', '{', 'x', '}', '}']))]).inputs,
      h.id = sanitizeId h.label) ∧
    (∀ i (hi : i < (useDynamicHandles textSchema
        [("text", .str (String.mk ['{', '{', 'x', '}', '}']))]).inputs.length),
      ((useDynamicHandles textSchema
        [("text", .str (String.mk ['{', '{', 'x', '}', '}']))]).inputs[i]).position =
        ((i : ℚ) + 1) * 100 /
          (((useDynamicHandles textSchema
            [("text", .str (String.mk ['{', '{', 'x', '}', '}']))]).inputs.length : ℚ) + 1)) ∧
    (∃ v w : String, v ≠ w ∧ sanitizeId v = sanitizeId w)) :=
  ⟨rfl, C10_dynamic_handles textSchema ⟨"text"⟩ _ rfl⟩

/-! ## C5: the fingerprint never depends on field data -/

/-- C5: two requests with identical node ids and types and identical edge
connectivity (source, target, source-handle, target-handle) produce the
same fingerprint, whatever their per-node field data: field data never
influences the cache key. -/
theorem C5_fingerprint_ignores_field_data (n1 n2 : List Node) (e1 e2 : List Edge)
    (hn : n1.map (fun n => (n.id, n.type)) = n2.map (fun n => (n.id, n.type)))
    (he : e1.map (fun e => (e.source, e.target, e.sourceHandle, e.targetHandle)) =
      e2.map (fun e => (e.source, e.target, e.sourceHandle, e.targetHandle))) :
    fingerprint ⟨n1, e1⟩ = fingerprint ⟨n2, e2⟩ := by
  have hnodes : ∀ l : List Node, l.map nodeDescriptor =
      (l.map (fun n => (n.id, n.type))).map (fun p => p.1 ++ ":" ++ p.2) := by
    intro l; rw [List.map_map]; rfl
  have hedges : ∀ l : List Edge, l.map edgeDescriptor =
      (l.map (fun e => (e.source, e.target, e.sourceHandle, e.targetHandle))).map
        (fun p => p.1 ++ ":" ++ p.2.1 ++ ":" ++ p.2.2.1.getD "" ++ ":" ++ p.2.2.2.getD "") := by
    intro l; rw [List.map_map]; rfl
  have h1 : n1.map nodeDescriptor = n2.map nodeDescriptor := by
    rw [hnodes, hnodes, hn]
  have h2 : e1.map edgeDescriptor = e2.map edgeDescriptor := by
    rw [hedges, hedges, he]
  unfold fingerprint
  rw [show (Graph.mk n1 e1).nodes = n1 from rfl, show (Graph.mk n1 e1).edges = e1 from rfl,
    show (Graph.mk n2 e2).nodes = n2 from rfl, show (Graph.mk n2 e2).edges = e2 from rfl,
    h1, h2]

/-- C5 witness: `C5_fingerprint_ignores_field_data` at two single-node
graphs that differ only in the node's field data. -/
theorem C5_fingerprint_ignores_field_data_witness :
    fingerprint ⟨[⟨"A", "text", [("text", .str "hello")]⟩], []⟩ =
      fingerprint ⟨[⟨"A", "text", [("text", .str "world")]⟩], []⟩ :=
  C5_fingerprint_ignores_field_data _ _ _ _ rfl rfl

/-! ## C6: build validation -/

/-- C6: `build` fails with a ValidationError exactly when an edge
references a node id absent from the request, a node id is duplicated, or
the node or edge count exceeds the configured maximum; on all other inputs
it succeeds with a Graph. -/
theorem C6_build_validation (maxNodes maxEdges : Nat)
    (nodes : List Node) (edges : List Edge) :
    (∃ err, build maxNodes maxEdges nodes edges = .error err) ↔
      ((∃ e ∈ edges, e.source ∉ nodes.map Node.id ∨ e.target ∉ nodes.map Node.id) ∨
        ¬ (nodes.map Node.id).Nodup ∨
        nodes.length > maxNodes ∨ edges.length > maxEdges) := by
  have hcont : ∀ (l : List String) (a : String), l.contains a = true ↔ a ∈ l := by
    intro l a
    rw [List.contains_iff_exists_mem_beq]
    constructor
    · rintro ⟨b, hb, hab⟩
      rw [eq_of_beq hab]; exact hb
    · intro h; exact ⟨a, h, by simp⟩
  unfold build
  by_cases h1 : nodes.length > maxNodes ∨ edges.length > maxEdges
  · rw [if_pos h1]
    exact iff_of_true ⟨.payloadTooLarge, rfl⟩ (Or.inr (Or.inr h1))
  rw [if_neg h1]
  by_cases h2 : (nodes.map Node.id).Nodup
  · rw [if_neg (not_not_intro h2)]
    by_cases h3 : edges.any (fun e =>
        !(nodes.map Node.id).contains e.source ||
          !(nodes.map Node.id).contains e.target) = true
    · rw [if_pos h3]
      refine iff_of_true ⟨.unknownEdgeRef, rfl⟩ (Or.inl ?_)
      rcases List.any_eq_true.1 h3 with ⟨e, he, hcond⟩
      refine ⟨e, he, ?_⟩
      rw [Bool.or_eq_true] at hcond
      rcases hcond with hs | ht
      · left
        rw [Bool.not_eq_true'] at hs
        intro hmem
        rw [(hcont _ _).2 hmem] at hs
        cases hs
      · right
        rw [Bool.not_eq_true'] at ht
        intro hmem
        rw [(hcont _ _).2 hmem] at ht
        cases ht
    · rw [if_neg h3]
      refine iff_of_false ?_ ?_
      · rintro ⟨err, herr⟩
        cases herr
      · rintro (⟨e, he, hbad⟩ | hdup | hbig)
        · have hall := List.any_eq_false.1 (Bool.eq_false_iff.2 h3) e he
          simp only [Bool.or_eq_true, not_or, Bool.not_eq_true', Bool.not_eq_false] at hall
          rcases hbad with hs | ht
          · exact hs ((hcont _ _).1 hall.1)
          · exact ht ((hcont _ _).1 hall.2)
        · exact hdup h2
        · exact h1 hbig
  · rw [if_pos h2]
    exact iff_of_true ⟨.duplicateNodeId, rfl⟩ (Or.inr (Or.inl h2))

/-- C6 witness: `C6_build_validation` at a request with a dangling edge. -/
theorem C6_build_validation_witness :
    (∃ err, build 100 100 [⟨"A", "t", []⟩] [⟨"e", "A", "B", none, none⟩] = .error err) ↔
      ((∃ e ∈ [Edge.mk "e" "A" "B" none none],
          e.source ∉ [Node.mk "A" "t" []].map Node.id ∨
          e.target ∉ [Node.mk "A" "t" []].map Node.id) ∨
        ¬ ([Node.mk "A" "t" []].map Node.id).Nodup ∨
        ([Node.mk "A" "t" []] : List Node).length > 100 ∨
        ([Edge.mk "e" "A" "B" none none] : List Edge).length > 100) :=
  C6_build_validation 100 100 _ _

/-! ## C7: validation failures never touch the cache -/

/-- C7: a request that fails validation leaves the Result Cache unchanged,
and in general every cache entry after any request was either already
present or is the freshly computed AnalysisResult of a successfully built
graph: only successfully computed results are ever stored. -/
theorem C7_validation_never_cached (maxNodes maxEdges : Nat) (st : CacheState)
    (nodes : List Node) (edges : List Edge) (err : BuildError)
    (hfail : build maxNodes maxEdges nodes edges = .error err) :
    (analyzeRequest maxNodes maxEdges st nodes edges).2 = st ∧
    (∀ (nodes2 : List Node) (edges2 : List Edge) (fp : String) (r : AnalysisResult),
      (fp, r) ∈ ((analyzeRequest maxNodes maxEdges st nodes2 edges2).2).entries →
        (fp, r) ∈ st.entries ∨
          ∃ g, build maxNodes maxEdges nodes2 edges2 = .ok g ∧ r = analyzeGraph g) := by
  constructor
  · unfold analyzeRequest
    rw [hfail]
  · intro nodes2 edges2 fp r hmem
    unfold analyzeRequest at hmem
    cases hb : build maxNodes maxEdges nodes2 edges2 with
    | error e =>
      rw [hb] at hmem
      exact Or.inl hmem
    | ok g =>
      rw [hb] at hmem
      cases hl : st.entries.lookup (fingerprint g) with
      | some r2 =>
        simp only [hl] at hmem
        exact Or.inl hmem
      | none =>
        simp only [hl] at hmem
        rcases List.mem_cons.1 hmem with heq | htail
        · refine Or.inr ⟨g, rfl, ?_⟩
          have h2 := congrArg Prod.snd heq
          simpa using h2
        · exact Or.inl htail

/-- C7 witness: `C7_validation_never_cached` at a dangling-edge request
against a nonempty cache. -/
theorem C7_validation_never_cached_witness :
    build 100 100 [⟨"A", "t", []⟩] [⟨"e", "A", "B", none, none⟩] =
      .error .unknownEdgeRef ∧
    (analyzeRequest 100 100 ⟨[("k", ⟨1, 0, true, none⟩)]⟩
        [⟨"A", "t", []⟩] [⟨"e", "A", "B", none, none⟩]).2 =
      ⟨[("k", ⟨1, 0, true, none⟩)]⟩ :=
  ⟨rfl, (C7_validation_never_cached 100 100 ⟨[("k", ⟨1, 0, true, none⟩)]⟩
    [⟨"A", "t", []⟩] [⟨"e", "A", "B", none, none⟩] .unknownEdgeRef rfl).1⟩

/-! ## C8: rate limiting -/

theorem admitOne_in_window (quota window t0 c : Nat) (client : String)
    (hw : 0 < window) (hc : c < quota) :
    admitOne quota window t0 ⟨[(client, t0, c)]⟩ client =
      (.allowed, ⟨[(client, t0, c + 1)]⟩) := by
  unfold admitOne
  have hlook : (LimiterState.mk [(client, t0, c)]).windows.lookup client =
      some (t0, c) := by
    simp [List.lookup]
  rw [hlook]
  simp only [if_neg (by omega : ¬ t0 + window ≤ t0)]
  rw [if_pos hc]
  simp [List.filter]

theorem admitTimes_in_window (quota window t0 : Nat) (client : String)
    (hw : 0 < window) :
    ∀ (j c : Nat), c + j ≤ quota →
      admitTimes quota window client (List.replicate j t0) ⟨[(client, t0, c)]⟩ =
        (List.replicate j .allowed, ⟨[(client, t0, c + j)]⟩) := by
  intro j
  induction j with
  | zero => intro c _; simp [admitTimes]
  | succ k ih =>
    intro c h
    rw [List.replicate_succ]
    simp only [admitTimes]
    rw [admitOne_in_window quota window t0 c client hw (by omega)]
    rw [ih (c + 1) (by omega)]
    have harith : c + 1 + k = c + (k + 1) := by omega
    simp only [Prod.mk.injEq, harith]
    exact ⟨(List.replicate_succ _ _).symm, trivial⟩

theorem admitTimes_append (quota window : Nat) (client : String) :
    ∀ (l1 l2 : List Nat) (st : LimiterState),
      admitTimes quota window client (l1 ++ l2) st =
        ((admitTimes quota window client l1 st).1 ++
          (admitTimes quota window client l2 (admitTimes quota window client l1 st).2).1,
          (admitTimes quota window client l2 (admitTimes quota window client l1 st).2).2) := by
  intro l1
  induction l1 with
  | nil => intro l2 st; simp [admitTimes]
  | cons t ts ih =>
    intro l2 st
    simp only [List.cons_append, admitTimes, List.append_eq, ih]

/-- C8: with quota `K` per window, a client's first `K` requests inside a
window are all admitted, the `(K+1)`-th is rejected with an explicit
rejection carrying the retry hint (the time until the window reopens), and
a request issued once the window has elapsed is admitted again. -/
theorem C8_rate_limit (quota window t0 : Nat) (client : String)
    (hq : 0 < quota) (hw : 0 < window) :
    (admitTimes quota window client
        (List.replicate (quota + 1) t0 ++ [t0 + window]) ⟨[]⟩).1 =
      List.replicate quota .allowed ++ [.rejected window, .allowed] := by
  obtain ⟨k, rfl⟩ : ∃ k, quota = k + 1 := ⟨quota - 1, by omega⟩
  have hfirst : admitOne (k + 1) window t0 ⟨[]⟩ client =
      (.allowed, ⟨[(client, t0, 1)]⟩) := by
    unfold admitOne
    simp [List.lookup, List.filter]
  have hfull : admitTimes (k + 1) window client (List.replicate k t0)
      ⟨[(client, t0, 1)]⟩ =
      (List.replicate k .allowed, ⟨[(client, t0, k + 1)]⟩) := by
    have := admitTimes_in_window (k + 1) window t0 client hw k 1 (by omega)
    rwa [Nat.add_comm 1 k] at this
  have hreject : admitOne (k + 1) window t0 ⟨[(client, t0, k + 1)]⟩ client =
      (.rejected window, ⟨[(client, t0, k + 1)]⟩) := by
    unfold admitOne
    have hlook : (LimiterState.mk [(client, t0, k + 1)]).windows.lookup client =
        some (t0, k + 1) := by
      simp [List.lookup]
    rw [hlook]
    simp only [if_neg (by omega : ¬ t0 + window ≤ t0)]
    rw [if_neg (by omega : ¬ k + 1 < k + 1)]
    have harg : t0 + window - t0 = window := by omega
    rw [harg]
  have hresume : admitOne (k + 1) window (t0 + window)
      ⟨[(client, t0, k + 1)]⟩ client =
      (.allowed, ⟨[(client, t0 + window, 1)]⟩) := by
    unfold admitOne
    have hlook : (LimiterState.mk [(client, t0, k + 1)]).windows.lookup client =
        some (t0, k + 1) := by
      simp [List.lookup]
    rw [hlook]
    simp only [if_pos (Nat.le_refl (t0 + window))]
    rw [if_pos (by omega : 0 < k + 1)]
    simp [List.filter]
  have hsplit : List.replicate (k + 1 + 1) t0 = t0 :: (List.replicate k t0 ++ [t0]) := by
    rw [List.replicate_succ]
    congr 1
    rw [← List.replicate_succ']
  rw [hsplit]
  simp only [List.cons_append, admitTimes, hfirst]
  simp only [List.append_eq, List.append_assoc, List.singleton_append]
  rw [admitTimes_append]
  simp only [hfull]
  simp [admitTimes, hreject, hresume, List.replicate_succ]

/-- C8 witness: `C8_rate_limit` at quota 2, window 10, requests at time 0
and one at time 10. -/
theorem C8_rate_limit_witness :
    0 < 2 ∧ 0 < 10 ∧
    (admitTimes 2 10 "c" (List.replicate (2 + 1) 0 ++ [0 + 10]) ⟨[]⟩).1 =
      List.replicate 2 .allowed ++ [.rejected 10, .allowed] :=
  ⟨by decide, by decide, C8_rate_limit 2 10 0 "c" (by decide) (by decide)⟩

/-! ## Chain and path helper lemmas for the cycle detector -/

theorem chainOf_tail (edges : List Edge) {x : String} {l : List String}
    (h : chainOf edges (x :: l)) : chainOf edges l := by
  cases l with
  | nil => exact trivial
  | cons y rest => exact h.2

theorem chainOf_suffix (edges : List Edge) :
    ∀ (a b : List String), chainOf edges (a ++ b) → chainOf edges b := by
  intro a
  induction a with
  | nil => intro b h; exact h
  | cons x a2 ih => intro b h; exact ih b (chainOf_tail edges h)

theorem getLastD_irrel {l : List String} (h : l ≠ []) (d d' : String) :
    l.getLastD d = l.getLastD d' := by
  cases l with
  | nil => exact absurd rfl h
  | cons y t => rw [List.getLastD_cons, List.getLastD_cons]

theorem chainOf_append_singleton (edges : List Edge) :
    ∀ (l : List String) (u : String), chainOf edges l →
      (l = [] ∨ isEdgeOf edges (l.getLastD "") u) → chainOf edges (l ++ [u]) := by
  intro l
  induction l with
  | nil => intro u _ _; exact trivial
  | cons x l2 ih =>
    intro u hch hlink
    rcases hlink with habs | hedge
    · exact absurd habs (by simp)
    cases l2 with
    | nil => exact ⟨by simpa using hedge, trivial⟩
    | cons y rest =>
      refine ⟨hch.1, ?_⟩
      have hsame : ((x :: y :: rest : List String)).getLastD "" =
          ((y :: rest : List String)).getLastD "" := by
        simp only [List.getLastD_cons]
      exact ih u hch.2 (Or.inr (hsame ▸ hedge))

theorem getLastD_append_of_ne_nil :
    ∀ (p c : List String), c ≠ [] → (p ++ c).getLastD "" = c.getLastD "" := by
  intro p
  induction p with
  | nil => intro c _; rfl
  | cons x p2 ih =>
    intro c hc
    rw [List.cons_append, List.getLastD_cons]
    have hne : p2 ++ c ≠ [] := by
      intro habs
      exact hc (List.append_eq_nil.mp habs).2
    rw [getLastD_irrel hne x ""]
    exact ih c hc

theorem dropWhile_ne_eq_cons {v : String} :
    ∀ {l : List String}, v ∈ l →
      ∃ t, l.dropWhile (fun w => w != v) = v :: t := by
  intro l
  induction l with
  | nil => intro h; simp at h
  | cons x l2 ih =>
    intro h
    by_cases hx : x = v
    · subst hx
      exact ⟨l2, by rw [List.dropWhile_cons_of_neg (by simp)]⟩
    · rcases List.mem_cons.1 h with h1 | h2
      · exact absurd h1.symm hx
      · obtain ⟨t, ht⟩ := ih h2
        exact ⟨t, by rw [List.dropWhile_cons_of_pos (by simp [hx])]; exact ht⟩

theorem backedge_sound (edges : List Edge) (path : List String) (v : String)
    (hnd : path.Nodup) (hch : chainOf edges path) (hmem : v ∈ path)
    (hlast : isEdgeOf edges (path.getLastD "") v) :
    cycleSound edges (path.dropWhile (fun w => w != v)) := by
  obtain ⟨t, ht⟩ := dropWhile_ne_eq_cons hmem
  have hsuffix : path.takeWhile (fun w => w != v) ++
      path.dropWhile (fun w => w != v) = path :=
    List.takeWhile_append_dropWhile _ _
  have hne : path.dropWhile (fun w => w != v) ≠ [] := by rw [ht]; simp
  refine ⟨hne, (List.dropWhile_sublist _).nodup hnd, ?_, ?_⟩
  · refine chainOf_suffix edges (path.takeWhile (fun w => w != v)) _ ?_
    rw [hsuffix]; exact hch
  · have hlast2 : path.getLastD "" = (path.dropWhile (fun w => w != v)).getLastD "" := by
      conv_lhs => rw [← hsuffix]
      exact getLastD_append_of_ne_nil _ _ hne
    have hhead : (path.dropWhile (fun w => w != v)).headD "" = v := by rw [ht]; rfl
    rw [← hlast2, hhead]
    exact hlast

theorem isEdgeOf_of_mem_succs {edges : List Edge} {u v : String}
    (h : v ∈ succs edges u) : isEdgeOf edges u v := by
  unfold succs at h
  rcases List.mem_map.1 h with ⟨e, he, rfl⟩
  have hf := List.mem_filter.1 he
  exact ⟨e, hf.1, by simpa using hf.2, rfl⟩

/-! ## Soundness of the DFS cycle detector -/

theorem dfsFold_sound (edges : List Edge)
    (visit : List String → String → Sum (List String) (List String))
    (path : List String) (hnd : path.Nodup) (hch : chainOf edges path)
    (hvisit : ∀ black v c, v ∉ path → isEdgeOf edges (path.getLastD "") v →
      visit black v = Sum.inl c → cycleSound edges c) :
    ∀ (vs black c : List String),
      (∀ v ∈ vs, isEdgeOf edges (path.getLastD "") v) →
      dfsFold visit path black vs = Sum.inl c → cycleSound edges c := by
  intro vs
  induction vs with
  | nil => intro black c _ h; simp [dfsFold] at h
  | cons v vs2 ih =>
    intro black c hall h
    simp only [dfsFold] at h
    by_cases hv : v ∈ path
    · rw [if_pos hv] at h
      rw [Sum.inl.injEq] at h
      subst h
      exact backedge_sound edges path v hnd hch hv (hall v (by simp))
    · rw [if_neg hv] at h
      by_cases hb : v ∈ black
      · rw [if_pos hb] at h
        exact ih black c (fun w hw => hall w (by simp [hw])) h
      · rw [if_neg hb] at h
        cases hvis : visit black v with
        | inl c2 =>
          simp only [hvis] at h
          rw [Sum.inl.injEq] at h
          subst h
          exact hvisit black v c2 hv (hall v (by simp)) hvis
        | inr black2 =>
          simp only [hvis] at h
          exact ih black2 c (fun w hw => hall w (by simp [hw])) h

theorem dfsVisit_sound (edges : List Edge) :
    ∀ (fuel : Nat) (path black : List String) (u : String) (c : List String),
      path.Nodup → chainOf edges path → u ∉ path →
      (path = [] ∨ isEdgeOf edges (path.getLastD "") u) →
      dfsVisit edges fuel path black u = Sum.inl c → cycleSound edges c := by
  intro fuel
  induction fuel with
  | zero => intro path black u c _ _ _ _ h; simp [dfsVisit] at h
  | succ f ih =>
    intro path black u c hnd hch hu hlink h
    have hnd2 : (path ++ [u]).Nodup := by
      rw [List.nodup_append]
      refine ⟨hnd, List.nodup_singleton u, ?_⟩
      intro a ha hml
      simp only [List.mem_singleton] at hml
      subst hml
      exact hu ha
    have hch2 : chainOf edges (path ++ [u]) :=
      chainOf_append_singleton edges path u hch hlink
    have hlastu : (path ++ [u]).getLastD "" = u := List.getLastD_concat _ _ _
    simp only [dfsVisit] at h
    cases hfold : dfsFold (fun b v => dfsVisit edges f (path ++ [u]) b v)
        (path ++ [u]) black (succs edges u) with
    | inl c2 =>
      simp only [hfold] at h
      rw [Sum.inl.injEq] at h
      subst h
      refine dfsFold_sound edges _ (path ++ [u]) hnd2 hch2 ?_ (succs edges u) black c2 ?_ hfold
      · intro b v cv hvp hve hvis
        exact ih (path ++ [u]) b v cv hnd2 hch2 hvp (Or.inr hve) hvis
      · intro v hv
        rw [hlastu]
        exact isEdgeOf_of_mem_succs hv
    | inr black2 =>
      simp only [hfold] at h
      cases h

theorem runDetector_sound (edges : List Edge) (fuel : Nat) :
    ∀ (ns black c : List String),
      runDetector edges fuel black ns = some c → cycleSound edges c := by
  intro ns
  induction ns with
  | nil => intro black c h; simp [runDetector] at h
  | cons n ns2 ih =>
    intro black c h
    simp only [runDetector] at h
    by_cases hb : n ∈ black
    · rw [if_pos hb] at h
      exact ih black c h
    · rw [if_neg hb] at h
      cases hv : dfsVisit edges fuel [] black n with
      | inl c2 =>
        simp only [hv, Option.some.injEq] at h
        subst h
        exact dfsVisit_sound edges fuel [] black n c2 List.nodup_nil trivial
          (by simp) (Or.inl rfl) hv
      | inr black2 =>
        simp only [hv] at h
        exact ih black2 c h

theorem cycleDetect_sound (nodes : List Node) (edges : List Edge) (c : List String)
    (h : (cycleDetect nodes edges).2 = some c) : cycleSound edges c := by
  unfold cycleDetect at h
  cases hr : runDetector edges (nodes.length + 1) [] (nodes.map Node.id) with
  | some c2 =>
    rw [hr] at h
    simp only [Option.some.injEq] at h
    subst h
    exact runDetector_sound edges _ _ _ _ hr
  | none =>
    rw [hr] at h
    cases h

theorem chain_elem_source (edges : List Edge) :
    ∀ (l : List String), chainOf edges l →
      ∀ x ∈ l, x = l.getLastD "" ∨ ∃ e ∈ edges, e.source = x := by
  intro l
  induction l with
  | nil => intro _ x hx; simp at hx
  | cons a l2 ih =>
    intro hch x hx
    cases l2 with
    | nil =>
      left
      simp only [List.mem_singleton] at hx
      subst hx
      rfl
    | cons b rest =>
      rcases List.mem_cons.1 hx with rfl | hx2
      · right
        obtain ⟨e, he, hes, _⟩ := hch.1
        exact ⟨e, he, hes⟩
      · rcases ih hch.2 x hx2 with heq | hsrc
        · left
          rw [heq]
          simp only [List.getLastD_cons]
        · right
          exact hsrc

theorem cycleSound_sources (edges : List Edge) (c : List String)
    (hs : cycleSound edges c) : ∀ x ∈ c, ∃ e ∈ edges, e.source = x := by
  intro x hx
  rcases chain_elem_source edges c hs.2.2.1 x hx with heq | h
  · obtain ⟨e, he, hes, _⟩ := hs.2.2.2
    exact ⟨e, he, heq ▸ hes⟩
  · exact h

/-! ## C1: soundness of reported cycles -/

/-- C1 counterexample: on the single self-loop graph the detector reports
the one-element cycle `[A]`, so a reported cycle need not have at least 2
node ids as the claim states. -/
theorem C1_atLeastTwo_counterexample :
    (cycleDetect [⟨"A", "t", []⟩] [⟨"e", "A", "A", none, none⟩]).2 = some ["A"] ∧
    ¬ 2 ≤ (["A"] : List String).length := by
  exact ⟨by decide, by decide⟩

/-- C1 (amended): every cycle reported by the detector is a sequence of at
least 1 (not 2: a self-loop yields a one-element cycle) distinct node ids
in which every consecutive pair, including the wraparound pair from the
last id back to the first, is an edge present in the request's input
edges; when every edge endpoint is a node id of the request, so is every
element of the cycle. -/
theorem C1_reported_cycle_amended (nodes : List Node) (edges : List Edge)
    (c : List String)
    (hvalid : ∀ e ∈ edges, e.source ∈ nodes.map Node.id ∧ e.target ∈ nodes.map Node.id)
    (h : (cycleDetect nodes edges).2 = some c) :
    1 ≤ c.length ∧ c.Nodup ∧ chainOf edges c ∧
      isEdgeOf edges (c.getLastD "") (c.headD "") ∧
      ∀ x ∈ c, x ∈ nodes.map Node.id := by
  have hs := cycleDetect_sound nodes edges c h
  refine ⟨?_, hs.2.1, hs.2.2.1, hs.2.2.2, ?_⟩
  · cases hc : c with
    | nil => exact absurd hc hs.1
    | cons _ _ => simp
  · intro x hx
    obtain ⟨e, he, hes⟩ := cycleSound_sources edges c hs x hx
    exact hes ▸ (hvalid e he).1

/-- C1 witness: `C1_reported_cycle_amended` on the three-node cycle
`A → B → C → A`. -/
theorem C1_reported_cycle_amended_witness :
    (∀ e ∈ [Edge.mk "e1" "A" "B" none none, Edge.mk "e2" "B" "C" none none,
        Edge.mk "e3" "C" "A" none none],
      e.source ∈ [Node.mk "A" "t" [], Node.mk "B" "t" [], Node.mk "C" "t" []].map Node.id ∧
      e.target ∈ [Node.mk "A" "t" [], Node.mk "B" "t" [], Node.mk "C" "t" []].map Node.id) ∧
    (cycleDetect [⟨"A", "t", []⟩, ⟨"B", "t", []⟩, ⟨"C", "t", []⟩]
      [⟨"e1", "A", "B", none, none⟩, ⟨"e2", "B", "C", none, none⟩,
        ⟨"e3", "C", "A", none, none⟩]).2 = some ["A", "B", "C"] ∧
    (1 ≤ (["A", "B", "C"] : List String).length ∧
      (["A", "B", "C"] : List String).Nodup ∧
      chainOf [⟨"e1", "A", "B", none, none⟩, ⟨"e2", "B", "C", none, none⟩,
        ⟨"e3", "C", "A", none, none⟩] ["A", "B", "C"] ∧
      isEdgeOf [⟨"e1", "A", "B", none, none⟩, ⟨"e2", "B", "C", none, none⟩,
        ⟨"e3", "C", "A", none, none⟩]
        ((["A", "B", "C"] : List String).getLastD "")
        ((["A", "B", "C"] : List String).headD "") ∧
      ∀ x ∈ (["A", "B", "C"] : List String),
        x ∈ [Node.mk "A" "t" [], Node.mk "B" "t" [], Node.mk "C" "t" []].map Node.id) :=
  ⟨by decide, by decide,
    by
      have h := C1_reported_cycle_amended
        [⟨"A", "t", []⟩, ⟨"B", "t", []⟩, ⟨"C", "t", []⟩]
        [⟨"e1", "A", "B", none, none⟩, ⟨"e2", "B", "C", none, none⟩,
          ⟨"e3", "C", "A", none, none⟩]
        ["A", "B", "C"] (by decide) (by decide)
      exact h⟩

/-! ## C2: a single self-loop is detected as the one-node cycle -/

theorem succs_selfloop (eid A : String) (sh th : Option String) :
    succs [⟨eid, A, A, sh, th⟩] A = [A] := by
  simp [succs, List.filter]

theorem succs_selfloop_other (eid A B : String) (sh th : Option String)
    (hne : B ≠ A) : succs [⟨eid, A, A, sh, th⟩] B = [] := by
  simp only [succs, List.filter]
  rw [show ((Edge.mk eid A A sh th).source == B) = false by
    simp [Ne.symm hne]]
  rfl

theorem dfsVisit_no_succs (edges : List Edge) (fuel : Nat)
    (black : List String) (u : String) (hs : succs edges u = []) :
    dfsVisit edges fuel [] black u = Sum.inr black ∨
      dfsVisit edges fuel [] black u = Sum.inr (u :: black) := by
  cases fuel with
  | zero => exact Or.inl rfl
  | succ f =>
    right
    simp only [dfsVisit, hs, dfsFold]

theorem dfsVisit_selfloop (eid A : String) (sh th : Option String)
    (f : Nat) (black : List String) :
    dfsVisit [⟨eid, A, A, sh, th⟩] (f + 1) [] black A = Sum.inl [A] := by
  simp only [dfsVisit, succs_selfloop, dfsFold, List.nil_append]
  rw [if_pos (List.mem_singleton.2 rfl)]
  simp [List.dropWhile]

theorem runDetector_selfloop (eid A : String) (sh th : Option String) (f : Nat) :
    ∀ (ns black : List String), A ∈ ns → A ∉ black →
      runDetector [⟨eid, A, A, sh, th⟩] (f + 1) black ns = some [A] := by
  intro ns
  induction ns with
  | nil => intro black h _; simp at h
  | cons n ns2 ih =>
    intro black hmem hblack
    by_cases hn : n = A
    · subst hn
      simp only [runDetector]
      rw [if_neg hblack]
      rw [dfsVisit_selfloop]
    · have hmem2 : A ∈ ns2 := by
        rcases List.mem_cons.1 hmem with h1 | h2
        · exact absurd h1.symm hn
        · exact h2
      simp only [runDetector]
      by_cases hb : n ∈ black
      · rw [if_pos hb]
        exact ih black hmem2 hblack
      · rw [if_neg hb]
        rcases dfsVisit_no_succs [⟨eid, A, A, sh, th⟩] (f + 1) black n
            (succs_selfloop_other eid A n sh th hn) with hvis | hvis
        · rw [hvis]
          exact ih black hmem2 hblack
        · rw [hvis]
          refine ih (n :: black) hmem2 ?_
          intro habs
          rcases List.mem_cons.1 habs with h1 | h2
          · exact hn h1.symm
          · exact hblack h2

/-- C2: for any graph whose edge list is a single self-loop on `A` (with
`A` among the request's node ids), the detector reports `is_dag = false`
and the cycle exactly `[A]`, by the general back-edge rule alone - the
embedding contains no self-loop special case. -/
theorem C2_selfloop (nodes : List Node) (eid A : String) (sh th : Option String)
    (hA : A ∈ nodes.map Node.id) :
    cycleDetect nodes [⟨eid, A, A, sh, th⟩] = (false, some [A]) := by
  unfold cycleDetect
  rw [runDetector_selfloop eid A sh th nodes.length (nodes.map Node.id) [] hA
    (by simp)]

/-- C2 witness: `C2_selfloop` on a two-node request whose single edge is
the self-loop on `A`. -/
theorem C2_selfloop_witness :
    "A" ∈ [Node.mk "B" "t" [], Node.mk "A" "t" []].map Node.id ∧
    cycleDetect [⟨"B", "t", []⟩, ⟨"A", "t", []⟩]
      [⟨"e", "A", "A", none, none⟩] = (false, some ["A"]) :=
  ⟨by decide, C2_selfloop [⟨"B", "t", []⟩, ⟨"A", "t", []⟩] "e" "A" none none (by decide)⟩

/-! ## Order lemmas for the canonical descriptor sort -/

theorem charsLe_total : ∀ (a b : List Char), charsLe a b = true ∨ charsLe b a = true := by
  intro a
  induction a with
  | nil => intro b; left; rfl
  | cons x as ih =>
    intro b
    cases b with
    | nil => right; rfl
    | cons y bs =>
      by_cases h1 : x.toNat < y.toNat
      · left; simp [charsLe, h1]
      · by_cases h2 : y.toNat < x.toNat
        · right; simp [charsLe, h2]
        · rcases ih bs with h | h
          · left; simp [charsLe, h1, h2, h]
          · right; simp [charsLe, h1, h2, h]

theorem charsLe_trans : ∀ (a b c : List Char),
    charsLe a b = true → charsLe b c = true → charsLe a c = true := by
  intro a
  induction a with
  | nil => intro b c _ _; rfl
  | cons x as ih =>
    intro b c hab hbc
    cases b with
    | nil => simp [charsLe] at hab
    | cons y bs =>
      cases c with
      | nil => simp [charsLe] at hbc
      | cons z cs =>
        simp only [charsLe] at hab hbc ⊢
        by_cases hxy : x.toNat < y.toNat
        · by_cases hyz : y.toNat < z.toNat
          · rw [if_pos (by omega : x.toNat < z.toNat)]
          · by_cases hzy : z.toNat < y.toNat
            · rw [if_neg hyz, if_pos hzy] at hbc; cases hbc
            · rw [if_pos (by omega : x.toNat < z.toNat)]
        · by_cases hyx : y.toNat < x.toNat
          · rw [if_neg hxy, if_pos hyx] at hab; cases hab
          · rw [if_neg hxy, if_neg hyx] at hab
            by_cases hyz : y.toNat < z.toNat
            · rw [if_pos (by omega : x.toNat < z.toNat)]
            · by_cases hzy : z.toNat < y.toNat
              · rw [if_neg hyz, if_pos hzy] at hbc; cases hbc
              · rw [if_neg hyz, if_neg hzy] at hbc
                rw [if_neg (by omega : ¬ x.toNat < z.toNat),
                  if_neg (by omega : ¬ z.toNat < x.toNat)]
                exact ih bs cs hab hbc

theorem charsLe_antisymm : ∀ (a b : List Char),
    charsLe a b = true → charsLe b a = true → a = b := by
  intro a
  induction a with
  | nil =>
    intro b _ hba
    cases b with
    | nil => rfl
    | cons y bs => simp [charsLe] at hba
  | cons x as ih =>
    intro b hab hba
    cases b with
    | nil => simp [charsLe] at hab
    | cons y bs =>
      simp only [charsLe] at hab hba
      by_cases hxy : x.toNat < y.toNat
      · rw [if_neg (by omega : ¬ y.toNat < x.toNat), if_pos hxy] at hba
        cases hba
      · by_cases hyx : y.toNat < x.toNat
        · rw [if_neg hxy, if_pos hyx] at hab
          cases hab
        · rw [if_neg hxy, if_neg hyx] at hab
          rw [if_neg hyx, if_neg hxy] at hba
          have heq : x = y := by
            apply Char.ext
            apply UInt32.eq_of_toBitVec_eq
            exact BitVec.eq_of_toNat_eq (by omega : x.toNat = y.toNat)
          rw [heq, ih bs hab hba]

theorem strLe_total (a b : String) : strLe a b = true ∨ strLe b a = true :=
  charsLe_total a.toList b.toList

theorem strLe_trans {a b c : String} (hab : strLe a b = true)
    (hbc : strLe b c = true) : strLe a c = true :=
  charsLe_trans a.toList b.toList c.toList hab hbc

theorem strLe_antisymm {a b : String} (hab : strLe a b = true)
    (hba : strLe b a = true) : a = b := by
  have h := charsLe_antisymm a.toList b.toList hab hba
  cases a with
  | mk d1 =>
    cases b with
    | mk d2 =>
      simp only [String.toList] at h
      rw [show d1 = d2 from h]

theorem insertS_perm (a : String) :
    ∀ (l : List String), List.Perm (insertS a l) (a :: l) := by
  intro l
  induction l with
  | nil => exact List.Perm.refl _
  | cons b bs ih =>
    simp only [insertS]
    by_cases h : strLe a b = true
    · rw [if_pos h]
    · rw [if_neg h]
      exact (List.Perm.cons b ih).trans (List.Perm.swap a b bs)

theorem sortStrings_perm : ∀ (l : List String), List.Perm (sortStrings l) l := by
  intro l
  induction l with
  | nil => exact List.Perm.refl _
  | cons x xs ih =>
    simp only [sortStrings]
    exact (insertS_perm x (sortStrings xs)).trans (List.Perm.cons x ih)

theorem insertS_sorted (a : String) :
    ∀ (l : List String), l.Pairwise (fun u v => strLe u v = true) →
      (insertS a l).Pairwise (fun u v => strLe u v = true) := by
  intro l
  induction l with
  | nil => intro _; simp [insertS]
  | cons b bs ih =>
    intro hp
    simp only [insertS]
    by_cases h : strLe a b = true
    · rw [if_pos h]
      refine List.Pairwise.cons ?_ hp
      intro z hz
      rcases List.mem_cons.1 hz with rfl | hz2
      · exact h
      · exact strLe_trans h (List.rel_of_pairwise_cons hp hz2)
    · rw [if_neg h]
      have hba : strLe b a = true := by
        rcases strLe_total a b with h1 | h1
        · exact absurd h1 h
        · exact h1
      refine List.Pairwise.cons ?_ (ih (List.Pairwise.of_cons hp))
      intro z hz
      rcases List.mem_cons.1 ((insertS_perm a bs).mem_iff.1 hz) with rfl | hz2
      · exact hba
      · exact List.rel_of_pairwise_cons hp hz2

theorem sortStrings_sorted :
    ∀ (l : List String), (sortStrings l).Pairwise (fun u v => strLe u v = true) := by
  intro l
  induction l with
  | nil => simp [sortStrings]
  | cons x xs ih =>
    simp only [sortStrings]
    exact insertS_sorted x (sortStrings xs) ih

theorem sortStrings_eq_of_perm {l1 l2 : List String} (h : List.Perm l1 l2) :
    sortStrings l1 = sortStrings l2 := by
  haveI : IsAntisymm String (fun u v => strLe u v = true) :=
    ⟨fun _ _ hab hba => strLe_antisymm hab hba⟩
  exact List.eq_of_perm_of_sorted
    (((sortStrings_perm l1).trans h).trans (sortStrings_perm l2).symm)
    (sortStrings_sorted l1) (sortStrings_sorted l2)

/-! ## C4: permutation invariance for acyclic graphs -/

theorem fingerprint_perm (n1 n2 : List Node) (e1 e2 : List Edge)
    (hn : List.Perm n1 n2) (he : List.Perm e1 e2) :
    fingerprint ⟨n1, e1⟩ = fingerprint ⟨n2, e2⟩ := by
  unfold fingerprint
  rw [sortStrings_eq_of_perm (hn.map nodeDescriptor),
    sortStrings_eq_of_perm (he.map edgeDescriptor)]

theorem isEdgeOf_perm {e1 e2 : List Edge} (h : List.Perm e1 e2) {u v : String} :
    isEdgeOf e1 u v ↔ isEdgeOf e2 u v := by
  unfold isEdgeOf
  constructor
  · rintro ⟨e, he, hp⟩; exact ⟨e, h.mem_iff.1 he, hp⟩
  · rintro ⟨e, he, hp⟩; exact ⟨e, h.mem_iff.2 he, hp⟩

theorem chainOf_perm {e1 e2 : List Edge} (h : List.Perm e1 e2) :
    ∀ (l : List String), chainOf e1 l ↔ chainOf e2 l := by
  intro l
  induction l with
  | nil => exact Iff.rfl
  | cons x l2 ih =>
    cases l2 with
    | nil => exact Iff.rfl
    | cons y rest =>
      exact and_congr (isEdgeOf_perm h) ih

theorem Acyclic_perm {e1 e2 : List Edge} (h : List.Perm e1 e2) (ha : Acyclic e1) :
    Acyclic e2 := by
  rintro ⟨c, hne, hch, hwrap⟩
  exact ha ⟨c, hne, (chainOf_perm h c).2 hch, (isEdgeOf_perm h).2 hwrap⟩

theorem cycleDetect_acyclic (nodes : List Node) (edges : List Edge)
    (ha : Acyclic edges) : cycleDetect nodes edges = (true, none) := by
  unfold cycleDetect
  cases hr : runDetector edges (nodes.length + 1) [] (nodes.map Node.id) with
  | some c =>
    exfalso
    have hs := runDetector_sound edges _ _ _ _ hr
    exact ha ⟨c, hs.1, hs.2.2.1, hs.2.2.2⟩
  | none => rfl

/-- C4: for an acyclic graph, permuting the input node and edge lists
changes neither the fingerprint nor any component of the AnalysisResult
(node count, edge count, is_dag, cycle). -/
theorem C4_perm_invariance (nodes nodes2 : List Node) (edges edges2 : List Edge)
    (hn : List.Perm nodes2 nodes) (he : List.Perm edges2 edges) (ha : Acyclic edges) :
    fingerprint ⟨nodes2, edges2⟩ = fingerprint ⟨nodes, edges⟩ ∧
      analyzeGraph ⟨nodes2, edges2⟩ = analyzeGraph ⟨nodes, edges⟩ := by
  have ha2 : Acyclic edges2 := Acyclic_perm he.symm ha
  refine ⟨fingerprint_perm _ _ _ _ hn he, ?_⟩
  unfold analyzeGraph
  rw [show (Graph.mk nodes2 edges2).nodes = nodes2 from rfl,
    show (Graph.mk nodes2 edges2).edges = edges2 from rfl,
    show (Graph.mk nodes edges).nodes = nodes from rfl,
    show (Graph.mk nodes edges).edges = edges from rfl,
    cycleDetect_acyclic nodes2 edges2 ha2, cycleDetect_acyclic nodes edges ha]
  simp [hn.length_eq, he.length_eq]

/-- C4 witness: `C4_perm_invariance` on the two-node edgeless graph with
its node list reversed. -/
theorem C4_perm_invariance_witness :
    List.Perm [Node.mk "B" "u" [], Node.mk "A" "t" []] [Node.mk "A" "t" [], Node.mk "B" "u" []] ∧
    Acyclic [] ∧
    (fingerprint ⟨[⟨"B", "u", []⟩, ⟨"A", "t", []⟩], []⟩ =
        fingerprint ⟨[⟨"A", "t", []⟩, ⟨"B", "u", []⟩], []⟩ ∧
      analyzeGraph ⟨[⟨"B", "u", []⟩, ⟨"A", "t", []⟩], []⟩ =
        analyzeGraph ⟨[⟨"A", "t", []⟩, ⟨"B", "u", []⟩], []⟩) := by
  have hperm : List.Perm [Node.mk "B" "u" [], Node.mk "A" "t" []]
      [Node.mk "A" "t" [], Node.mk "B" "u" []] :=
    List.Perm.swap (Node.mk "A" "t" []) (Node.mk "B" "u" []) []
  have hacyc : Acyclic [] := by
    rintro ⟨c, _, _, hwrap⟩
    obtain ⟨e, he, _⟩ := hwrap
    simp at he
  exact ⟨hperm, hacyc,
    C4_perm_invariance [⟨"A", "t", []⟩, ⟨"B", "u", []⟩]
      [⟨"B", "u", []⟩, ⟨"A", "t", []⟩] [] [] hperm (List.Perm.refl []) hacyc⟩

end VectorShift
